import Mathlib

/-!
# Verification of the bili2text acquisition-and-transcription core

Shallow embedding of the core components of the `bili2text` repository:

* the request signer `RequestApi._get_signa` (src/xunfei.py),
* the polling client `RequestApi.get_result` (src/xunfei.py),
* the transcript extractor `extract_text` (src/xunfei.py),
* the paragraph formatter `format_for_wechat` (src/xunfei.py),
* the multi-provider download resolver `download_audio_only` (src/utils.py).

Modelling conventions: Python `str` values are modelled as `List Char`
(with `String` only at outer wrappers); Python `int` as `Nat`/`Int`;
JSON objects as structures whose optional fields are `Option`-typed, with
the `.get(key, default)` defaults applied exactly where the source applies
them; network and subprocess effects are abstracted as oracle parameters
(the resolver's two providers, the poll loop's response stream).
-/

namespace Bili2Text

/-! ## 32-bit arithmetic on `Nat` (explicit reduction mod 2^32) -/

def mask32 (n : Nat) : Nat := n % 4294967296

def add32 (a b : Nat) : Nat := mask32 (a + b)

def not32 (x : Nat) : Nat := mask32 x ^^^ 4294967295

def rotl32 (x s : Nat) : Nat := mask32 (mask32 x <<< s) ||| (mask32 x >>> (32 - s))

/-- One 32-bit word from four bytes, little-endian. -/
def wordLE (b0 b1 b2 b3 : Nat) : Nat := b0 + 256 * b1 + 65536 * b2 + 16777216 * b3

/-- One 32-bit word from four bytes, big-endian. -/
def wordBE (b0 b1 b2 b3 : Nat) : Nat := b3 + 256 * b2 + 65536 * b1 + 16777216 * b0

def toWordsLE : List Nat → List Nat
  | b0 :: b1 :: b2 :: b3 :: rest => wordLE b0 b1 b2 b3 :: toWordsLE rest
  | _ => []

def toWordsBE : List Nat → List Nat
  | b0 :: b1 :: b2 :: b3 :: rest => wordBE b0 b1 b2 b3 :: toWordsBE rest
  | _ => []

def wordBytesLE (w : Nat) : List Nat := [w % 256, (w >>> 8) % 256, (w >>> 16) % 256, (w >>> 24) % 256]

def wordBytesBE (w : Nat) : List Nat := [(w >>> 24) % 256, (w >>> 16) % 256, (w >>> 8) % 256, w % 256]

/-- 64-bit message bit length, little-endian byte order (MD5). -/
def lenBytesLE (bits : Nat) : List Nat := (List.range 8).map (fun i => (bits >>> (8 * i)) % 256)

/-- 64-bit message bit length, big-endian byte order (SHA-1). -/
def lenBytesBE (bits : Nat) : List Nat := (List.range 8).map (fun i => (bits >>> (8 * (7 - i))) % 256)

/-- Split a byte list into 64-byte blocks; `fuel` bounds the recursion and any
value `≥ l.length / 64 + 1` is exact. -/
def chunks64 : Nat → List Nat → List (List Nat)
  | 0, _ => []
  | _ + 1, [] => []
  | fuel + 1, l => l.take 64 :: chunks64 fuel (l.drop 64)

/-- Merkle–Damgård padding: `0x80`, zeros to 56 mod 64, then the 64-bit bit length. -/
def padTail (len : Nat) : List Nat := 128 :: List.replicate ((120 - (len + 1) % 64) % 64) 0

/-! ## MD5 (RFC 1321) -/

def md5K : List Nat :=
  [0xd76aa478, 0xe8c7b756, 0x242070db, 0xc1bdceee,
   0xf57c0faf, 0x4787c62a, 0xa8304613, 0xfd469501,
   0x698098d8, 0x8b44f7af, 0xffff5bb1, 0x895cd7be,
   0x6b901122, 0xfd987193, 0xa679438e, 0x49b40821,
   0xf61e2562, 0xc040b340, 0x265e5a51, 0xe9b6c7aa,
   0xd62f105d, 0x02441453, 0xd8a1e681, 0xe7d3fbc8,
   0x21e1cde6, 0xc33707d6, 0xf4d50d87, 0x455a14ed,
   0xa9e3e905, 0xfcefa3f8, 0x676f02d9, 0x8d2a4c8a,
   0xfffa3942, 0x8771f681, 0x6d9d6122, 0xfde5380c,
   0xa4beea44, 0x4bdecfa9, 0xf6bb4b60, 0xbebfbc70,
   0x289b7ec6, 0xeaa127fa, 0xd4ef3085, 0x04881d05,
   0xd9d4d039, 0xe6db99e5, 0x1fa27cf8, 0xc4ac5665,
   0xf4292244, 0x432aff97, 0xab9423a7, 0xfc93a039,
   0x655b59c3, 0x8f0ccc92, 0xffeff47d, 0x85845dd1,
   0x6fa87e4f, 0xfe2ce6e0, 0xa3014314, 0x4e0811a1,
   0xf7537e82, 0xbd3af235, 0x2ad7d2bb, 0xeb86d391]

def md5S : List Nat :=
  [7, 12, 17, 22, 7, 12, 17, 22, 7, 12, 17, 22, 7, 12, 17, 22,
   5, 9, 14, 20, 5, 9, 14, 20, 5, 9, 14, 20, 5, 9, 14, 20,
   4, 11, 16, 23, 4, 11, 16, 23, 4, 11, 16, 23, 4, 11, 16, 23,
   6, 10, 15, 21, 6, 10, 15, 21, 6, 10, 15, 21, 6, 10, 15, 21]

def md5F (i b c d : Nat) : Nat :=
  if i < 16 then (b &&& c) ||| (not32 b &&& d)
  else if i < 32 then (d &&& b) ||| (not32 d &&& c)
  else if i < 48 then b ^^^ c ^^^ d
  else c ^^^ (b ||| not32 d)

def md5G (i : Nat) : Nat :=
  if i < 16 then i
  else if i < 32 then (5 * i + 1) % 16
  else if i < 48 then (3 * i + 5) % 16
  else (7 * i) % 16

def md5Step (m : List Nat) (st : Nat × Nat × Nat × Nat) (i : Nat) : Nat × Nat × Nat × Nat :=
  match st with
  | (a, b, c, d) =>
    let f := add32 (add32 (add32 a (md5F i b c d)) (md5K.getD i 0)) (m.getD (md5G i) 0)
    (d, add32 b (rotl32 f (md5S.getD i 0)), b, c)

def md5Block (st : Nat × Nat × Nat × Nat) (block : List Nat) : Nat × Nat × Nat × Nat :=
  match st, (List.range 64).foldl (md5Step (toWordsLE block)) st with
  | (a0, b0, c0, d0), (a, b, c, d) => (add32 a0 a, add32 b0 b, add32 c0 c, add32 d0 d)

def md5Bytes (msg : List Nat) : List Nat :=
  let padded := msg ++ padTail msg.length ++ lenBytesLE (8 * msg.length)
  match (chunks64 padded.length padded).foldl md5Block
      (0x67452301, 0xefcdab89, 0x98badcfe, 0x10325476) with
  | (a, b, c, d) => wordBytesLE a ++ wordBytesLE b ++ wordBytesLE c ++ wordBytesLE d

def hexDigit (n : Nat) : Char := if n < 10 then Char.ofNat (48 + n) else Char.ofNat (87 + n)

def byteHex (b : Nat) : List Char := [hexDigit (b / 16), hexDigit (b % 16)]

/-- Lowercase hexadecimal digest string, as Python's `md5(...).hexdigest()`. -/
def md5Hex (msg : List Nat) : List Char := ((md5Bytes msg).map byteHex).flatten

/-! ## SHA-1 (RFC 3174) -/

def sha1F (t b c d : Nat) : Nat :=
  if t < 20 then (b &&& c) ||| (not32 b &&& d)
  else if t < 40 then b ^^^ c ^^^ d
  else if t < 60 then (b &&& c) ||| (b &&& d) ||| (c &&& d)
  else b ^^^ c ^^^ d

def sha1K (t : Nat) : Nat :=
  if t < 20 then 0x5A827999
  else if t < 40 then 0x6ED9EBA1
  else if t < 60 then 0x8F1BBCDC
  else 0xCA62C1D6

/-- The 80-word SHA-1 message schedule of one block. -/
def sha1W (m : List Nat) : List Nat :=
  (List.range 80).foldl
    (fun w t =>
      if t < 16 then w ++ [m.getD t 0]
      else w ++ [rotl32 (w.getD (t - 3) 0 ^^^ w.getD (t - 8) 0 ^^^ w.getD (t - 14) 0 ^^^ w.getD (t - 16) 0) 1])
    []

def sha1Round (w : List Nat) (st : Nat × Nat × Nat × Nat × Nat) (t : Nat) :
    Nat × Nat × Nat × Nat × Nat :=
  match st with
  | (a, b, c, d, e) =>
    (add32 (add32 (add32 (add32 (rotl32 a 5) (sha1F t b c d)) e) (sha1K t)) (w.getD t 0),
     a, rotl32 b 30, c, d)

def sha1Block (st : Nat × Nat × Nat × Nat × Nat) (block : List Nat) :
    Nat × Nat × Nat × Nat × Nat :=
  match st, (List.range 80).foldl (sha1Round (sha1W (toWordsBE block))) st with
  | (h0, h1, h2, h3, h4), (a, b, c, d, e) =>
    (add32 h0 a, add32 h1 b, add32 h2 c, add32 h3 d, add32 h4 e)

def sha1Bytes (msg : List Nat) : List Nat :=
  let padded := msg ++ padTail msg.length ++ lenBytesBE (8 * msg.length)
  match (chunks64 padded.length padded).foldl sha1Block
      (0x67452301, 0xEFCDAB89, 0x98BADCFE, 0x10325476, 0xC3D2E1F0) with
  | (a, b, c, d, e) =>
    wordBytesBE a ++ wordBytesBE b ++ wordBytesBE c ++ wordBytesBE d ++ wordBytesBE e

/-! ## HMAC-SHA1 (RFC 2104), base64, UTF-8 -/

def hmacSha1 (key msg : List Nat) : List Nat :=
  let k0 := if 64 < key.length then sha1Bytes key else key
  let k := k0 ++ List.replicate (64 - k0.length) 0
  sha1Bytes ((k.map (fun b => b ^^^ 0x5C)) ++ sha1Bytes ((k.map (fun b => b ^^^ 0x36)) ++ msg))

def b64Alphabet : List Char :=
  "ABCDEFGHIJKLMNOPQRSTUVWXYZabcdefghijklmnopqrstuvwxyz0123456789+/".data

def b64Char (n : Nat) : Char := b64Alphabet.getD n 'A'

/-- Standard base64 with `=` padding, as Python's `base64.b64encode`. -/
def b64Encode : List Nat → List Char
  | [] => []
  | [b0] => [b64Char (b0 >>> 2), b64Char ((b0 % 4) <<< 4), '=', '=']
  | [b0, b1] => [b64Char (b0 >>> 2), b64Char (((b0 % 4) <<< 4) ||| (b1 >>> 4)),
                 b64Char ((b1 % 16) <<< 2), '=']
  | b0 :: b1 :: b2 :: rest =>
      [b64Char (b0 >>> 2), b64Char (((b0 % 4) <<< 4) ||| (b1 >>> 4)),
       b64Char (((b1 % 16) <<< 2) ||| (b2 >>> 6)), b64Char (b2 % 64)] ++ b64Encode rest

/-- UTF-8 encoding of a single character. -/
def utf8Char (ch : Char) : List Nat :=
  let n := ch.toNat
  if n < 128 then [n]
  else if n < 2048 then [192 + n / 64, 128 + n % 64]
  else if n < 65536 then [224 + n / 4096, 128 + (n / 64) % 64, 128 + n % 64]
  else [240 + n / 262144, 128 + (n / 4096) % 64, 128 + (n / 64) % 64, 128 + n % 64]

/-- Python's `s.encode('utf-8')`. -/
def utf8 (s : List Char) : List Nat := (s.map utf8Char).flatten

/-! ## The Signer: `RequestApi._get_signa` (src/xunfei.py lines 44-52)

```python
m2 = hashlib.md5()
m2.update((self.appid + self.ts).encode('utf-8'))
md5 = m2.hexdigest()
md5 = bytes(md5, encoding='utf-8')
signa = hmac.new(self.secret_key.encode('utf-8'), md5, hashlib.sha1).digest()
signa = base64.b64encode(signa)
return str(signa, 'utf-8')
```
(The final `str(signa, 'utf-8')` decodes the ASCII base64 bytes back into
text; here `b64Encode` produces the characters directly.) -/
def get_signa (appid secret_key ts : List Char) : List Char :=
  let m2hex : List Char := md5Hex (utf8 (appid ++ ts))
  let md5bytes : List Nat := utf8 m2hex
  let signa : List Nat := hmacSha1 (utf8 secret_key) md5bytes
  b64Encode signa

/-- The signing algorithm as worded by the specification (§4.2): an HMAC,
keyed by `secretKey`, over the (hexadecimal text of the) MD5 digest of
`appId || timestamp`, with SHA-1 as the MAC hash, encoded as base64 text. -/
def signSpec (appId secretKey ts : List Char) : List Char :=
  b64Encode (hmacSha1 (utf8 secretKey) (utf8 (md5Hex (utf8 (appId ++ ts)))))

/-! ## The polling client: `RequestApi.get_result` (src/xunfei.py lines 92-152)

JSON response shapes, with `Option` for fields the code accesses through
`dict.get` with a default. The network is abstracted as a response stream
`responses : Nat → PollResponse` giving the n-th poll's parsed JSON; the
`time.sleep(5)` calls and the spinner animation are presentation-only
side effects with no influence on the returned value and are omitted. -/

structure OrderInfoJ where
  status : Option Int
  failType : Option Int
deriving DecidableEq

structure PollContent where
  orderResult : Option (List Char)
  orderInfo : Option OrderInfoJ
deriving DecidableEq

structure PollResponse where
  content : Option PollContent
deriving DecidableEq

structure UploadContent where
  orderId : Option (List Char)
deriving DecidableEq

structure UploadResponse where
  content : Option UploadContent
deriving DecidableEq

/-- The `while retry_count < max_retries` loop of `get_result`, as structural
recursion on the remaining retries (`fuel`); `polls` counts poll requests
already issued and doubles as the index into the response stream.  Returns
the Python return value (`Some response` on success, `none` on failure or
timeout) paired with the total number of poll requests issued.

```python
while retry_count < max_retries:
    ... POST /getResult ...
    if 'content' not in result:
        time.sleep(5); retry_count += 1; continue
    order_result = result.get('content', {}).get('orderResult', '')
    if order_result:
        return result
    order_info = result.get('content', {}).get('orderInfo', {})
    status = order_info.get('status', 3)
    if status == 3:
        time.sleep(5); retry_count += 1
    else:
        fail_type = order_info.get('failType', 0)   # read, never propagated
        return None
return None   # timeout
``` -/
def pollLoop (responses : Nat → PollResponse) : Nat → Nat → Option PollResponse × Nat
  | 0, polls => (none, polls)
  | fuel + 1, polls =>
    let r := responses polls
    match r.content with
    | none => pollLoop responses fuel (polls + 1)
    | some c =>
      if (c.orderResult.getD []) ≠ [] then (some r, polls + 1)
      else if (c.orderInfo.getD ⟨none, none⟩).status.getD 3 = 3 then
        pollLoop responses fuel (polls + 1)
      else (none, polls + 1)

/-- Embedding of `RequestApi.get_result`: checks the upload response for `content.orderId`
(returning `None` with zero polls when absent), then runs the poll loop with
`max_retries = 60`. -/
def get_result (upload : UploadResponse) (responses : Nat → PollResponse) :
    Option PollResponse × Nat :=
  match upload.content with
  | none => (none, 0)
  | some c =>
    match c.orderId with
    | none => (none, 0)
    | some _ => pollLoop responses 60 0

/-- Whether the upload response carries `content.orderId`. -/
def hasOrderId (u : UploadResponse) : Bool :=
  match u.content with
  | some c => c.orderId.isSome
  | none => false

/-- A poll response on which the loop keeps polling: either no `content`
block, or an empty `orderResult` together with the processing sentinel
status 3 (the default when `orderInfo` or `status` is missing). -/
def stillProcessing (r : PollResponse) : Bool :=
  match r.content with
  | none => true
  | some c => (c.orderResult.getD []).isEmpty &&
      ((c.orderInfo.getD ⟨none, none⟩).status.getD 3 == 3)

/-! ## Transcript extraction: `extract_text` (src/xunfei.py lines 155-176)

The result payload is doubly JSON-encoded in the source
(`json.loads(orderResult)`, then `json.loads(lattice['json_1best'])`).
A *well-formed* payload is one on which both decodes succeed; the
structures below are those decoded values, field names kept, with
`Option` for the `dict.get` defaults used by the code. -/

structure CandidateWord where
  w : Option (List Char)
deriving DecidableEq

structure WordSegment where
  cw : Option (List CandidateWord)
deriving DecidableEq

structure RecUnit where
  ws : Option (List WordSegment)
deriving DecidableEq

structure SentenceBlock where
  rt : Option (List RecUnit)
deriving DecidableEq

structure LatticeEntry where
  st : Option SentenceBlock
deriving DecidableEq

structure OrderResultJ where
  lattice : Option (List LatticeEntry)
deriving DecidableEq

/-- The per-unit sentence:
`''.join([cw.get('w', '') for ws in rt.get('ws', []) for cw in ws.get('cw', [])])` —
a flat comprehension over every word-segment and, within it, every
candidate word. -/
def rtSentence (rt : RecUnit) : List Char :=
  ((rt.ws.getD []).map (fun seg => ((seg.cw.getD []).map (fun c => c.w.getD [])).flatten)).flatten

/-- Embedding of `extract_text` on a well-formed decoded payload: appends one sentence
per recognition unit to a `sentences` accumulator across both nested
loops (`for lattice ...: for rt ...: sentences.append(sentence)`), then
`''.join(sentences)`. -/
def extract_text (r : OrderResultJ) : List Char :=
  let sentences : List (List Char) :=
    ((r.lattice.getD []).map (fun lat => ((lat.st.getD ⟨none⟩).rt.getD []).map rtSentence)).flatten
  sentences.flatten

/-- The extraction as worded by the claim: per lattice, per unit, per
word-segment, only the **first** candidate word's text. -/
def extractFirstSpec (r : OrderResultJ) : List Char :=
  (((r.lattice.getD []).map
      (fun lat =>
        (((lat.st.getD ⟨none⟩).rt.getD []).map
            (fun rt =>
              ((rt.ws.getD []).map
                  (fun seg => (((seg.cw.getD []).head?).map (fun c => c.w.getD [])).getD [])).flatten)).flatten)).flatten)

/-- The extraction as the specification's nesting describes it, amended to
take **every** candidate word of each segment (in order): for each lattice
in order, for each unit in order, for each word-segment in order, the
candidates' texts, all concatenated with no separator. -/
def extractAllSpec (r : OrderResultJ) : List Char :=
  (((r.lattice.getD []).map
      (fun lat =>
        (((lat.st.getD ⟨none⟩).rt.getD []).map
            (fun rt =>
              ((rt.ws.getD []).map
                  (fun seg => ((seg.cw.getD []).map (fun c => c.w.getD [])).flatten)).flatten)).flatten)).flatten)

/-! ## The acquisition resolver: `download_audio_only` (src/utils.py lines 190-224)

The two providers (`download_audio_native`, `download_audio_with_ytdlp`)
perform network and subprocess I/O; each returns `(audio_path, title)` on
success and `(None, None)` on any failure — their failure *reasons* are
only printed to the console, never returned.  They are therefore modelled
as oracles `String → Option (String × String)` taking the normalized BV
identifier.  Directory creation (`ensure_folders_exist`) is an idempotent
filesystem effect with no influence on the return value and is omitted.
Besides the Python return value, the embedding records the ordered trace
of provider invocations. -/

inductive Provider
  | native
  | ytdlp
deriving DecidableEq

/-- The specification's per-provider failure taxonomy (§7), used to state
what information the resolver's return value would have to carry. -/
inductive AcqFailureReason
  | network
  | timeout
  | parseFailure
  | notFound
  | toolMissing
  | nonZeroExit
deriving DecidableEq

/-- BV normalization: `if not bv_number.startswith("BV"): bv_number = "BV" + bv_number`. -/
def normalizeBV (bv : String) : String :=
  if bv.startsWith "BV" then bv else "BV" ++ bv

/-- Embedding of `download_audio_only`: normalize the identifier, try the native
provider, fall back to yt-dlp, return `(None, None)` (here `none`) if both
fail.  The second component is the trace of providers invoked, in order. -/
def download_audio_only (native ytdlp : String → Option (String × String))
    (bv : String) : Option (String × String) × List Provider :=
  let bvn := normalizeBV bv
  match native bvn with
  | some r => (some r, [Provider.native])
  | none =>
    match ytdlp bvn with
    | some r => (some r, [Provider.native, Provider.ytdlp])
    | none => (none, [Provider.native, Provider.ytdlp])

/-! ## The text formatter: `format_for_wechat` (src/xunfei.py lines 179-241) -/

/-- Python whitespace (the character class stripped by `str.strip()` and
matched by `re`'s `\s` on `str` patterns): ASCII whitespace, the file/group
/record/unit separators, NEL, NBSP and the Unicode space separators. -/
def pyIsSpace (c : Char) : Bool :=
  let n := c.toNat
  (9 ≤ n && n ≤ 13) || n == 32 || (28 ≤ n && n ≤ 31) || n == 133 || n == 160 ||
  n == 5760 || (8192 ≤ n && n ≤ 8202) || n == 8232 || n == 8233 ||
  n == 8239 || n == 8287 || n == 12288

/-- Python's `c.isalpha() and ord(c) < 128`: an ASCII letter. -/
def isAsciiAlpha (c : Char) : Bool :=
  let n := c.toNat
  (65 ≤ n && n ≤ 90) || (97 ≤ n && n ≤ 122)

/-- Python's `re.sub(r'\s+', ' ', text)`: each maximal whitespace run becomes one
space.  The flag records whether the scanner is inside a run whose single
replacement space has already been emitted. -/
def collapseWs : Bool → List Char → List Char
  | _, [] => []
  | inRun, c :: rest =>
    if pyIsSpace c then
      if inRun then collapseWs true rest else ' ' :: collapseWs true rest
    else c :: collapseWs false rest

/-- Python's `str.strip()`: drop leading and trailing whitespace. -/
def stripChars (l : List Char) : List Char :=
  ((l.dropWhile pyIsSpace).reverse.dropWhile pyIsSpace).reverse

def isTermEn (c : Char) : Bool := c == '.' || c == '!' || c == '?'

/-- Python's `re.sub(r'([.!?])\s*', r'\1\n', text)`: after each sentence terminator,
emit a newline and swallow the following whitespace run.  The flag records
whether the scanner is inside the `\s*` of a match. -/
def breakEn : Bool → List Char → List Char
  | _, [] => []
  | skipping, c :: rest =>
    if skipping && pyIsSpace c then breakEn true rest
    else if isTermEn c then c :: '\n' :: breakEn true rest
    else c :: breakEn false rest

def isTermZh (c : Char) : Bool := c == '。' || c == '！' || c == '？'

/-- Python's `re.sub(r'([。！？])', r'\1\n', text)`. -/
def breakZh (l : List Char) : List Char :=
  (l.map (fun c => if isTermZh c then [c, '\n'] else [c])).flatten

/-- Python's `text.split('\n')`: split at every newline, keeping empty pieces. -/
def splitNl : List Char → List (List Char)
  | [] => [[]]
  | c :: rest =>
    if c = '\n' then [] :: splitNl rest
    else
      match splitNl rest with
      | [] => [[c]]
      | p :: ps => (c :: p) :: ps

/-- The comprehension `[line.strip() for line in text.split('\n') if line.strip()]`
(the comprehension filters on the stripped value, so stripping first and
then dropping empties is the same computation). -/
def linesOf (l : List Char) : List (List Char) :=
  ((splitNl l).map stripChars).filter (fun p => ¬ p.isEmpty)

/-- Python's `sep.join(pieces)`. -/
def joinSep (sep : List Char) : List (List Char) → List Char
  | [] => []
  | [p] => p
  | p :: ps => p ++ sep ++ joinSep sep ps

/-- Python's `line.endswith(c)` for a single character. -/
def endsIn (c : Char) (l : List Char) : Bool := l.getLast? == some c

/-- The test `line.endswith('?') or line.endswith('!')` (space-delimited mode). -/
def strongEn (l : List Char) : Bool := endsIn '?' l || endsIn '!' l

/-- The test `line.endswith('？') or line.endswith('！')` (no-space mode). -/
def strongZh (l : List Char) : Bool := endsIn '？' l || endsIn '！' l

/-- The paragraph-grouping loop shared by both modes:
```python
formatted = []; paragraph = []
for line in lines:
    paragraph.append(line)
    if len(paragraph) >= limit or strong(line):
        formatted.append(sep.join(paragraph)); paragraph = []
if paragraph:
    formatted.append(sep.join(paragraph))
```
with `limit = 3, sep = ' '` in space-delimited mode and
`limit = 2, sep = ''` in no-space mode. -/
def groupGo (sep : List Char) (limit : Nat) (strong : List Char → Bool) :
    List (List Char) → List (List Char) → List (List Char)
  | para, [] => if para.isEmpty then [] else [joinSep sep para]
  | para, line :: rest =>
    let para2 := para ++ [line]
    if limit ≤ para2.length || strong line then
      joinSep sep para2 :: groupGo sep limit strong [] rest
    else groupGo sep limit strong para2 rest

/-- The script heuristic:
`alpha_count / max(total_chars, 1) > 0.5` where `alpha_count` counts ASCII
letters and `total_chars = len(text.replace(' ', ''))` (only U+0020 is
removed).  The Python comparison is on floats, but for `t < 2^53` the
double nearest to `a / t` exceeds `0.5` exactly when `2 * a > t`, so the
integer comparison below is exact. -/
def is_english (l : List Char) : Bool :=
  max (l.filter (fun c => c ≠ ' ')).length 1 < 2 * l.countP (fun c => isAsciiAlpha c)

/-- Space-delimited (English) branch. -/
def formatEn (l : List Char) : List Char :=
  joinSep ['\n', '\n']
    (groupGo [' '] 3 strongEn [] (linesOf (breakEn false (stripChars (collapseWs false l)))))

/-- No-space (Chinese) branch; `re.sub(r'\s+', '', text)` is the filter. -/
def formatZh (l : List Char) : List Char :=
  joinSep ['\n', '\n']
    (groupGo [] 2 strongZh [] (linesOf (breakZh (l.filter (fun c => ¬ pyIsSpace c)))))

/-- Embedding of `format_for_wechat` over `List Char`. -/
def formatChars (l : List Char) : List Char :=
  if l.isEmpty then []
  else if is_english l then formatEn l
  else formatZh l

/-- Embedding of `format_for_wechat` at the `String` interface. -/
def format_for_wechat (s : String) : String := String.mk (formatChars s.data)

/-- Splitting on the blank-line paragraph separator `"\n\n"` (leftmost,
non-overlapping), to state paragraph-level properties of the output. -/
def splitNN : List Char → List (List Char)
  | [] => [[]]
  | [c] => [[c]]
  | c1 :: c2 :: rest =>
    if c1 = '\n' ∧ c2 = '\n' then [] :: splitNN rest
    else
      match splitNN (c2 :: rest) with
      | [] => [[c1]]
      | p :: ps => (c1 :: p) :: ps

/-! # Claims

One theorem per claim of the specification audit, with counterexamples
for the claims the code refutes. -/

/-! ## C3: the signature algorithm -/

/-- C3: for every `appId`, `secretKey` and `timestamp`, the produced
signature is the base64 encoding of an HMAC keyed by `secretKey` whose
message is the (hexadecimal text of the) MD5 digest of
`appId || timestamp` and whose MAC hash is SHA-1; and the function is
deterministic — equal inputs give byte-for-byte equal signatures. -/
theorem get_signa_spec_deterministic :
    (∀ a k t : List Char, get_signa a k t = signSpec a k t) ∧
    (∀ a₁ k₁ t₁ a₂ k₂ t₂ : List Char, a₁ = a₂ → k₁ = k₂ → t₁ = t₂ →
      get_signa a₁ k₁ t₁ = get_signa a₂ k₂ t₂) :=
  ⟨fun _ _ _ => rfl, fun _ _ _ _ _ _ ha hk ht => by rw [ha, hk, ht]⟩

/-- Witness for C3 at the concrete job credentials
`("myapp", "mysecret", ts = "1700000000")` (this instance was also checked
externally against CPython's `hashlib`/`hmac`/`base64`, giving
`"bQLaVmp10Fr8ac+Brs4z31umdIk="`). -/
theorem get_signa_spec_deterministic_witness :
    get_signa "myapp".data "mysecret".data "1700000000".data =
      signSpec "myapp".data "mysecret".data "1700000000".data ∧
    get_signa "myapp".data "mysecret".data "1700000000".data =
      get_signa "myapp".data "mysecret".data "1700000000".data :=
  ⟨get_signa_spec_deterministic.1 _ _ _,
   get_signa_spec_deterministic.2 _ _ _ _ _ _ rfl rfl rfl⟩

/-! ## C4: transcript extraction takes every candidate word, not the first -/

/-- A well-formed payload with one lattice, one recognition unit and one
word-segment carrying two candidate words `"a"` and `"b"`. -/
def twoCandidatePayload : OrderResultJ :=
  ⟨some [⟨some ⟨some [⟨some [⟨some [⟨some ['a']⟩, ⟨some ['b']⟩]⟩]⟩]⟩⟩]⟩

/-- Counterexample to C4 as stated: on a word-segment with two candidate
words, `extract_text` concatenates both candidates (`"ab"`), not just the
first (`"a"`) — the source iterates `for cw in ws.get('cw', [])` over every
candidate. -/
theorem extract_text_first_candidate_cex :
    extract_text twoCandidatePayload = ['a', 'b'] ∧
    extractFirstSpec twoCandidatePayload = ['a'] ∧
    extract_text twoCandidatePayload ≠ extractFirstSpec twoCandidatePayload := by
  refine ⟨by decide, by decide, by decide⟩

/-- C4 (amended): for every well-formed doubly-encoded result payload,
extraction returns exactly the concatenation, with no separator, of
**every** candidate word's text of each word-segment, taken for each
lattice in order, within each lattice for each recognition unit in order,
and within each unit for each word-segment in order. -/
theorem extract_text_concats_every_candidate :
    ∀ r : OrderResultJ, extract_text r = extractAllSpec r := by
  intro r
  unfold extract_text extractAllSpec rtSentence
  induction r.lattice.getD [] with
  | nil => rfl
  | cons lat rest ih => simp_all [List.flatten_append]

/-! ## C5: resolver exhaustion returns a bare failure, reasons discarded -/

/-- Counterexample to C5 as stated.  In the source, a provider that fails
with `NotFound` and one that fails with `Timeout` both return
`(None, None)` to the resolver — the reasons are only printed — so the
scenario "both providers failed with reasons r₁, r₂" is, at the resolver
boundary, the *same* invocation for every choice of reasons.  Hence no
reading `f` of the resolver's return value can report the per-provider
failure reasons: it would have to map the one value
`download_audio_only (fun _ => none) (fun _ => none) "1xx411c7mD"` to two
different reason lists. -/
theorem download_audio_only_reasons_lost_cex :
    ¬ ∃ f : Option (String × String) × List Provider → List AcqFailureReason,
      f (download_audio_only (fun _ => none) (fun _ => none) "1xx411c7mD") =
        [AcqFailureReason.notFound, AcqFailureReason.toolMissing] ∧
      f (download_audio_only (fun _ => none) (fun _ => none) "1xx411c7mD") =
        [AcqFailureReason.timeout, AcqFailureReason.nonZeroExit] := by
  rintro ⟨f, h1, h2⟩
  exact absurd (h1.symm.trans h2) (by decide)

/-- C5 (amended): whenever both the direct-fetch provider and the
delegated-extraction provider fail, `download_audio_only` attempts both
providers in priority order and returns the bare failure `(None, None)`
(here `none`); the per-provider failure reasons are printed to the console
inside the providers and are not carried in the return value. -/
theorem download_audio_only_exhaustion_bare :
    ∀ (native ytdlp : String → Option (String × String)) (bv : String),
      native (normalizeBV bv) = none → ytdlp (normalizeBV bv) = none →
      download_audio_only native ytdlp bv = (none, [Provider.native, Provider.ytdlp]) := by
  intro native ytdlp bv h1 h2
  simp only [download_audio_only, h1, h2]

/-- Witness for the amended C5 at two concrete always-failing providers. -/
theorem download_audio_only_exhaustion_bare_witness :
    download_audio_only (fun _ => none) (fun _ => none) "1xx411c7mD" =
      (none, [Provider.native, Provider.ytdlp]) :=
  download_audio_only_exhaustion_bare _ _ _ rfl rfl

/-! ## C7: provider fallback order -/

/-- C7: the resolver invokes the direct-fetch (native) provider first and
the delegated-extraction (yt-dlp) provider second, each at most once,
stopping at the first success: (1) a native success is returned without
invoking yt-dlp; (2) on native failure a yt-dlp success is returned after
invoking both, in order; (3) the invocation trace is always either
`[native]` or `[native, ytdlp]` — each provider invoked at most once, in
the fixed priority order. -/
theorem download_audio_only_fallback_order :
    (∀ (native ytdlp : String → Option (String × String)) (bv : String)
        (r : String × String), native (normalizeBV bv) = some r →
      download_audio_only native ytdlp bv = (some r, [Provider.native])) ∧
    (∀ (native ytdlp : String → Option (String × String)) (bv : String)
        (r : String × String),
      native (normalizeBV bv) = none → ytdlp (normalizeBV bv) = some r →
      download_audio_only native ytdlp bv = (some r, [Provider.native, Provider.ytdlp])) ∧
    (∀ (native ytdlp : String → Option (String × String)) (bv : String),
      (download_audio_only native ytdlp bv).2 = [Provider.native] ∨
      (download_audio_only native ytdlp bv).2 = [Provider.native, Provider.ytdlp]) := by
  refine ⟨fun native ytdlp bv r h => by simp only [download_audio_only, h],
          fun native ytdlp bv r h1 h2 => by simp only [download_audio_only, h1, h2],
          fun native ytdlp bv => ?_⟩
  cases h1 : native (normalizeBV bv) with
  | some r => left; simp only [download_audio_only, h1]
  | none =>
    cases h2 : ytdlp (normalizeBV bv) with
    | some r => right; simp only [download_audio_only, h1, h2]
    | none => right; simp only [download_audio_only, h1, h2]

/-- Witness for C7: a failing native provider and a succeeding yt-dlp
provider yield the yt-dlp result with both attempts traced in order; a
succeeding native provider is returned with yt-dlp never invoked. -/
theorem download_audio_only_fallback_order_witness :
    download_audio_only (fun _ => none) (fun _ => some ("out.mp3", "title")) "1yY411s7uQ" =
      (some ("out.mp3", "title"), [Provider.native, Provider.ytdlp]) ∧
    download_audio_only (fun _ => some ("native.m4a", "title")) (fun _ => none) "1yY411s7uQ" =
      (some ("native.m4a", "title"), [Provider.native]) :=
  ⟨download_audio_only_fallback_order.2.1 _ _ _ _ rfl rfl,
   download_audio_only_fallback_order.1 _ _ _ _ rfl⟩

/-! ## C9: the no-space-mode end-to-end scenario -/

/-- C9: formatting `"这是第一句。这是第二句！这是第三句。"` yields exactly the two
paragraphs `"这是第一句。这是第二句！"` and `"这是第三句。"`, separated by one blank
line. -/
theorem format_for_wechat_zh_scenario :
    format_for_wechat "这是第一句。这是第二句！这是第三句。" =
      "这是第一句。这是第二句！\n\n这是第三句。" ∧
    splitNN (formatChars "这是第一句。这是第二句！这是第三句。".data) =
      ["这是第一句。这是第二句！".data, "这是第三句。".data] := by
  refine ⟨by decide, by decide⟩

/-! ## Poll-loop lemmas (C1, C2, C6) -/

/-- Loop step, no-content branch. -/
theorem pollLoop_succ_none (resp : Nat → PollResponse) (m polls : Nat)
    (h : (resp polls).content = none) :
    pollLoop resp (m + 1) polls = pollLoop resp m (polls + 1) := by
  simp only [pollLoop, h]

/-- Loop step, non-empty `orderResult` branch: immediate success. -/
theorem pollLoop_succ_ready (resp : Nat → PollResponse) (m polls : Nat)
    (c : PollContent) (h : (resp polls).content = some c)
    (h2 : (c.orderResult.getD []) ≠ []) :
    pollLoop resp (m + 1) polls = (some (resp polls), polls + 1) := by
  simp only [pollLoop, h]
  rw [if_pos h2]

/-- Loop step, empty result with processing sentinel: keep polling. -/
theorem pollLoop_succ_proc (resp : Nat → PollResponse) (m polls : Nat)
    (c : PollContent) (h : (resp polls).content = some c)
    (h2 : (c.orderResult.getD []) = [])
    (h3 : (c.orderInfo.getD ⟨none, none⟩).status.getD 3 = 3) :
    pollLoop resp (m + 1) polls = pollLoop resp m (polls + 1) := by
  simp only [pollLoop, h]
  rw [if_neg (fun hx => hx h2), if_pos h3]

/-- Loop step, empty result with a non-processing status: terminal failure. -/
theorem pollLoop_succ_fail (resp : Nat → PollResponse) (m polls : Nat)
    (c : PollContent) (h : (resp polls).content = some c)
    (h2 : (c.orderResult.getD []) = [])
    (h3 : (c.orderInfo.getD ⟨none, none⟩).status.getD 3 ≠ 3) :
    pollLoop resp (m + 1) polls = (none, polls + 1) := by
  simp only [pollLoop, h]
  rw [if_neg (fun hx => hx h2), if_neg h3]

/-- On a stream of still-processing responses the loop consumes all its
fuel, issuing one poll per iteration, and returns `None`. -/
theorem pollLoop_processing (resp : Nat → PollResponse)
    (h : ∀ n, stillProcessing (resp n) = true) :
    ∀ fuel polls, pollLoop resp fuel polls = (none, polls + fuel) := by
  intro fuel
  induction fuel with
  | zero => intro polls; rfl
  | succ m ih =>
    intro polls
    have hp := h polls
    unfold stillProcessing at hp
    cases hc : (resp polls).content with
    | none =>
      rw [pollLoop_succ_none resp m polls hc, ih (polls + 1), Nat.add_assoc,
        Nat.add_comm 1 m]
    | some c =>
      rw [hc] at hp
      simp only [Bool.and_eq_true, List.isEmpty_iff, beq_iff_eq] at hp
      rw [pollLoop_succ_proc resp m polls c hc hp.1 hp.2, ih (polls + 1),
        Nat.add_assoc, Nat.add_comm 1 m]

/-- The poll counter never exceeds `polls + fuel`. -/
theorem pollLoop_le (resp : Nat → PollResponse) :
    ∀ fuel polls, (pollLoop resp fuel polls).2 ≤ polls + fuel := by
  intro fuel
  induction fuel with
  | zero => intro polls; simp [pollLoop]
  | succ m ih =>
    intro polls
    cases hc : (resp polls).content with
    | none =>
      rw [pollLoop_succ_none resp m polls hc]
      exact le_trans (ih (polls + 1)) (by omega)
    | some c =>
      by_cases h2 : (c.orderResult.getD []) = []
      · by_cases h3 : (c.orderInfo.getD ⟨none, none⟩).status.getD 3 = 3
        · rw [pollLoop_succ_proc resp m polls c hc h2 h3]
          exact le_trans (ih (polls + 1)) (by omega)
        · rw [pollLoop_succ_fail resp m polls c hc h2 h3]; omega
      · rw [pollLoop_succ_ready resp m polls c hc h2]; omega

/-- If the first `k` responses are still-processing and the `k`-th response
carries a non-empty `orderResult`, the loop returns that response as a
success after exactly `k + 1` polls — with no condition at all on the
response's status field. -/
theorem pollLoop_first_content (resp : Nat → PollResponse) :
    ∀ fuel k polls c, k < fuel →
      (∀ i, i < k → stillProcessing (resp (polls + i)) = true) →
      (resp (polls + k)).content = some c →
      (c.orderResult.getD []) ≠ [] →
      pollLoop resp fuel polls = (some (resp (polls + k)), polls + k + 1) := by
  intro fuel
  induction fuel with
  | zero => intro k polls c hk; omega
  | succ m ih =>
    intro k polls c hk hproc hc hne
    cases k with
    | zero =>
      rw [Nat.add_zero] at hc ⊢
      exact pollLoop_succ_ready resp m polls c hc hne
    | succ j =>
      have hp := hproc 0 (Nat.succ_pos j)
      rw [Nat.add_zero] at hp
      unfold stillProcessing at hp
      have hstep : ∀ i, i < j → stillProcessing (resp (polls + 1 + i)) = true := by
        intro i hi
        have := hproc (i + 1) (by omega)
        rwa [show polls + (i + 1) = polls + 1 + i by omega] at this
      have hc' : (resp (polls + 1 + j)).content = some c := by
        rwa [show polls + 1 + j = polls + (j + 1) by omega]
      have hrec := ih j (polls + 1) c (by omega) hstep hc' hne
      rw [show polls + 1 + j = polls + (j + 1) by omega] at hrec
      cases hc0 : (resp polls).content with
      | none => rw [pollLoop_succ_none resp m polls hc0]; exact hrec
      | some c0 =>
        rw [hc0] at hp
        simp only [Bool.and_eq_true, List.isEmpty_iff, beq_iff_eq] at hp
        rw [pollLoop_succ_proc resp m polls c0 hc0 hp.1 hp.2]
        exact hrec

/-! ## C1: the poll loop is bounded by `maxAttempts = 60` -/

/-- C1: (1) when the upload succeeded (`orderId` present) and every poll
response is still-processing — it lacks a content block or reports the
processing sentinel with no result — `get_result` issues exactly 60 poll
requests and returns the timeout outcome `None`; (2) for *every* upload
response and response stream the number of polls issued never exceeds 60. -/
theorem get_result_poll_bound :
    (∀ (up : UploadResponse) (resp : Nat → PollResponse),
      hasOrderId up = true → (∀ n, stillProcessing (resp n) = true) →
      get_result up resp = (none, 60)) ∧
    (∀ (up : UploadResponse) (resp : Nat → PollResponse),
      (get_result up resp).2 ≤ 60) := by
  constructor
  · intro up resp hid hproc
    cases hu : up.content with
    | none => simp [hasOrderId, hu] at hid
    | some uc =>
      cases ho : uc.orderId with
      | none => simp [hasOrderId, hu, ho] at hid
      | some oid =>
        simp only [get_result, hu, ho]
        simpa using pollLoop_processing resp hproc 60 0
  · intro up resp
    cases hu : up.content with
    | none => simp [get_result, hu]
    | some uc =>
      cases ho : uc.orderId with
      | none => simp [get_result, hu, ho]
      | some oid =>
        simp only [get_result, hu, ho]
        simpa using pollLoop_le resp 60 0

/-- Witness for C1: a successful upload and the constant
"still processing" response (empty `orderResult`, status 3). -/
theorem get_result_poll_bound_witness :
    hasOrderId ⟨some ⟨some ['o']⟩⟩ = true ∧
    get_result ⟨some ⟨some ['o']⟩⟩
        (fun _ => ⟨some ⟨some [], some ⟨some 3, none⟩⟩⟩) = (none, 60) ∧
    (get_result ⟨some ⟨some ['o']⟩⟩
        (fun _ => ⟨some ⟨some [], some ⟨some 3, none⟩⟩⟩)).2 ≤ 60 :=
  ⟨rfl, get_result_poll_bound.1 _ _ rfl (fun _ => rfl), get_result_poll_bound.2 _ _⟩

/-! ## C2: a non-empty `orderResult` wins over any status -/

/-- C2: if the upload succeeded, the first `k` poll responses (for any
`k < 60`) are still-processing, and the `k`-th response contains a content
block with a non-empty `orderResult`, then `get_result` returns that very
response as a success after exactly `k + 1` polls — with no hypothesis on
`content.orderInfo.status`, which may in particular still be the
processing sentinel 3. -/
theorem get_result_content_priority :
    ∀ (up : UploadResponse) (resp : Nat → PollResponse) (k : Nat) (c : PollContent),
      hasOrderId up = true → k < 60 →
      (∀ i, i < k → stillProcessing (resp i) = true) →
      (resp k).content = some c →
      (c.orderResult.getD []) ≠ [] →
      get_result up resp = (some (resp k), k + 1) := by
  intro up resp k c hid hk hproc hc hne
  cases hu : up.content with
  | none => simp [hasOrderId, hu] at hid
  | some uc =>
    cases ho : uc.orderId with
    | none => simp [hasOrderId, hu, ho] at hid
    | some oid =>
      simp only [get_result, hu, ho]
      have := pollLoop_first_content resp 60 k 0 c hk
        (by intro i hi; simpa using hproc i hi) (by simpa using hc) hne
      simpa using this

/-- Witness for C2 at `k = 0` with a response whose status is *still the
processing sentinel 3* while `orderResult` is non-empty: the response is
returned as a success after one poll. -/
theorem get_result_content_priority_witness :
    (⟨some ⟨some ['h', 'i'], some ⟨some 3, none⟩⟩⟩ : PollResponse).content =
      some ⟨some ['h', 'i'], some ⟨some 3, none⟩⟩ ∧
    get_result ⟨some ⟨some ['o']⟩⟩
        (fun _ => ⟨some ⟨some ['h', 'i'], some ⟨some 3, none⟩⟩⟩) =
      (some ⟨some ⟨some ['h', 'i'], some ⟨some 3, none⟩⟩⟩, 1) :=
  ⟨rfl,
   get_result_content_priority _ _ 0 ⟨some ['h', 'i'], some ⟨some 3, none⟩⟩
     rfl (by omega) (fun i hi => absurd hi (Nat.not_lt_zero i)) rfl (by decide)⟩

/-! ## C6: a terminal remote failure returns `None`; `failType` is not carried -/

/-- Counterexample to C6 as stated.  Two response streams that differ only
in the service's `failType` code (4 versus 7) both make `get_result`
terminate immediately with the same bare `None`: the source reads
`fail_type = order_info.get('failType', 0)` into a local that is never
used, and even the printed message shows only `status`.  Hence no reading
`f` of the returned value can report the failure-type code to the caller. -/
theorem get_result_fail_type_lost_cex :
    ¬ ∃ f : Option PollResponse × Nat → Int,
      f (get_result ⟨some ⟨some ['o']⟩⟩
          (fun _ => ⟨some ⟨none, some ⟨some 4, some 4⟩⟩⟩)) = 4 ∧
      f (get_result ⟨some ⟨some ['o']⟩⟩
          (fun _ => ⟨some ⟨none, some ⟨some 4, some 7⟩⟩⟩)) = 7 := by
  rintro ⟨f, h1, h2⟩
  have e1 : get_result ⟨some ⟨some ['o']⟩⟩
      (fun _ => (⟨some ⟨none, some ⟨some 4, some 4⟩⟩⟩ : PollResponse)) = (none, 1) := by decide
  have e2 : get_result ⟨some ⟨some ['o']⟩⟩
      (fun _ => (⟨some ⟨none, some ⟨some 4, some 7⟩⟩⟩ : PollResponse)) = (none, 1) := by decide
  rw [e1] at h1
  rw [e2] at h2
  exact absurd (h1.symm.trans h2) (by decide)

/-- C6 (amended): a poll response that contains a content block, has an
empty `orderResult` and reports a status other than the processing
sentinel 3 makes the client terminate immediately with the bare failure
outcome `None` (after exactly that one poll); the service's `failType`
code is read from the response but not propagated to the caller. -/
theorem get_result_remote_failure_none :
    ∀ (up : UploadResponse) (resp : Nat → PollResponse) (c : PollContent),
      hasOrderId up = true →
      (resp 0).content = some c →
      (c.orderResult.getD []) = [] →
      (c.orderInfo.getD ⟨none, none⟩).status.getD 3 ≠ 3 →
      get_result up resp = (none, 1) := by
  intro up resp c hid hc hres hst
  cases hu : up.content with
  | none => simp [hasOrderId, hu] at hid
  | some uc =>
    cases ho : uc.orderId with
    | none => simp [hasOrderId, hu, ho] at hid
    | some oid =>
      simp only [get_result, hu, ho]
      have h60 : pollLoop resp (59 + 1) 0 = (none, 0 + 1) :=
        pollLoop_succ_fail resp 59 0 c hc hres hst
      simpa using h60

/-- Witness for the amended C6: a response with `status = 4`,
`failType = 7` and empty `orderResult` yields `(None, 1)`. -/
theorem get_result_remote_failure_none_witness :
    get_result ⟨some ⟨some ['o']⟩⟩
        (fun _ => ⟨some ⟨none, some ⟨some 4, some 7⟩⟩⟩) = (none, 1) :=
  get_result_remote_failure_none _ _ ⟨none, some ⟨some 4, some 7⟩⟩
    rfl rfl rfl (by decide)

/-! ## Formatter lemmas (C8, C10) -/

theorem head?_append_left {α : Type} {l1 : List α} (l2 : List α) (h : l1 ≠ []) :
    (l1 ++ l2).head? = l1.head? := by
  cases l1 with
  | nil => exact absurd rfl h
  | cons a t => rfl

theorem mem_of_getLast?_eq {α : Type} :
    ∀ {l : List α} {a : α}, l.getLast? = some a → a ∈ l := by
  intro l
  induction l with
  | nil => intro a h; simp at h
  | cons b t ih =>
    intro a h
    cases t with
    | nil => simp [List.getLast?] at h; simp [h]
    | cons c t' =>
      rw [List.getLast?_cons_cons] at h
      exact List.mem_cons_of_mem b (ih h)

theorem getLast?_append_right {α : Type} (l1 : List α) {l2 : List α} (h : l2 ≠ []) :
    (l1 ++ l2).getLast? = l2.getLast? := by
  induction l1 with
  | nil => rfl
  | cons a t ih =>
    rw [List.cons_append]
    cases ht : t ++ l2 with
    | nil =>
      rcases List.append_eq_nil.mp ht with ⟨_, h2⟩
      exact absurd h2 h
    | cons b u =>
      rw [List.getLast?_cons_cons, ← ht, ih]

/-- Python's `split('\n')` always yields at least one piece. -/
theorem splitNl_ne_nil : ∀ l : List Char, splitNl l ≠ [] := by
  intro l
  induction l with
  | nil => simp [splitNl]
  | cons c rest ih =>
    unfold splitNl
    by_cases hc : c = '\n'
    · simp [hc]
    · rw [if_neg hc]
      cases h : splitNl rest with
      | nil => exact absurd h ih
      | cons p ps => simp

/-- No piece of `split('\n')` contains a newline. -/
theorem mem_splitNl_no_nl : ∀ (l : List Char) (p : List Char), p ∈ splitNl l → '\n' ∉ p := by
  intro l
  induction l with
  | nil =>
    intro p hp
    simp [splitNl] at hp
    simp [hp]
  | cons c rest ih =>
    intro p hp
    unfold splitNl at hp
    by_cases hc : c = '\n'
    · rw [if_pos hc] at hp
      rcases List.mem_cons.mp hp with h | h
      · simp [h]
      · exact ih p h
    · rw [if_neg hc] at hp
      cases h : splitNl rest with
      | nil => exact absurd h (splitNl_ne_nil rest)
      | cons q qs =>
        rw [h] at hp
        rcases List.mem_cons.mp hp with h2 | h2
        · subst h2
          intro hmem
          rcases List.mem_cons.mp hmem with h3 | h3
          · exact hc h3.symm
          · exact ih q (h ▸ List.mem_cons_self q qs) h3
        · exact ih p (h ▸ List.mem_cons_of_mem q h2)

/-- Stripping only removes characters. -/
theorem mem_stripChars {c : Char} {l : List Char} (h : c ∈ stripChars l) : c ∈ l := by
  unfold stripChars at h
  rw [List.mem_reverse] at h
  have h1 := (List.dropWhile_sublist (l := (l.dropWhile pyIsSpace).reverse)
    (p := pyIsSpace)).subset h
  rw [List.mem_reverse] at h1
  exact (List.dropWhile_sublist (l := l) (p := pyIsSpace)).subset h1

/-- Every line produced by `linesOf` is non-empty and newline-free. -/
theorem linesOf_good (l : List Char) : ∀ p ∈ linesOf l, p ≠ [] ∧ '\n' ∉ p := by
  intro p hp
  unfold linesOf at hp
  rw [List.mem_filter] at hp
  obtain ⟨hmem, hne⟩ := hp
  rw [List.mem_map] at hmem
  obtain ⟨q, hq, hqe⟩ := hmem
  constructor
  · intro hnil
    rw [hnil] at hne
    simp at hne
  · intro hnl
    rw [← hqe] at hnl
    exact mem_splitNl_no_nl l q hq (mem_stripChars hnl)

/-- A join `sep.join` of non-empty pieces is non-empty. -/
theorem joinSep_ne_nil (sep : List Char) :
    ∀ ps : List (List Char), ps ≠ [] → (∀ p ∈ ps, p ≠ []) →
      joinSep sep ps ≠ [] := by
  intro ps
  cases ps with
  | nil => intro h; exact absurd rfl h
  | cons p qs =>
    intro _ hps
    cases qs with
    | nil => exact hps p (List.mem_cons_self p [])
    | cons q rest =>
      show p ++ sep ++ joinSep sep (q :: rest) ≠ []
      have hp : p ≠ [] := hps p (List.mem_cons_self _ _)
      cases p with
      | nil => exact absurd rfl hp
      | cons a t => simp

/-- A join `sep.join` of newline-free pieces with a newline-free separator is
newline-free. -/
theorem joinSep_no_nl {sep : List Char} (hsep : '\n' ∉ sep) :
    ∀ ps : List (List Char), (∀ p ∈ ps, '\n' ∉ p) →
      '\n' ∉ joinSep sep ps := by
  intro ps
  induction ps with
  | nil => intro _; simp [joinSep]
  | cons p qs ih =>
    intro hps
    cases qs with
    | nil => exact hps p (List.mem_cons_self _ _)
    | cons q rest =>
      show '\n' ∉ p ++ sep ++ joinSep sep (q :: rest)
      intro hmem
      rcases List.mem_append.mp hmem with h | h
      · rcases List.mem_append.mp h with h2 | h2
        · exact hps p (List.mem_cons_self _ _) h2
        · exact hsep h2
      · exact ih (fun r hr => hps r (List.mem_cons_of_mem p hr)) h

/-- Every paragraph built by the grouping loop from non-empty newline-free
lines (and any pending non-empty newline-free partial paragraph) is
non-empty and newline-free. -/
theorem groupGo_good (sep : List Char) (limit : Nat) (strong : List Char → Bool)
    (hsep : '\n' ∉ sep) :
    ∀ (lines para : List (List Char)),
      (∀ x ∈ para, x ≠ [] ∧ '\n' ∉ x) →
      (∀ x ∈ lines, x ≠ [] ∧ '\n' ∉ x) →
      ∀ q ∈ groupGo sep limit strong para lines, q ≠ [] ∧ '\n' ∉ q := by
  intro lines
  induction lines with
  | nil =>
    intro para hpara _ q hq
    unfold groupGo at hq
    by_cases hp : para.isEmpty
    · rw [if_pos hp] at hq
      simp at hq
    · rw [if_neg hp] at hq
      rw [List.mem_singleton] at hq
      subst hq
      have hpe : para ≠ [] := by
        intro h; rw [h] at hp; exact hp rfl
      exact ⟨joinSep_ne_nil sep para hpe (fun p h => (hpara p h).1),
             joinSep_no_nl hsep para (fun p h => (hpara p h).2)⟩
  | cons line rest ih =>
    intro para hpara hlines q hq
    have hline := hlines line (List.mem_cons_self _ _)
    have hrest : ∀ x ∈ rest, x ≠ [] ∧ '\n' ∉ x :=
      fun x hx => hlines x (List.mem_cons_of_mem line hx)
    have hpara2 : ∀ x ∈ para ++ [line], x ≠ [] ∧ '\n' ∉ x := by
      intro x hx
      rcases List.mem_append.mp hx with h | h
      · exact hpara x h
      · rw [List.mem_singleton] at h; subst h; exact hline
    unfold groupGo at hq
    by_cases hcond : (limit ≤ (para ++ [line]).length || strong line) = true
    · rw [if_pos hcond] at hq
      rcases List.mem_cons.mp hq with h | h
      · subst h
        exact ⟨joinSep_ne_nil sep _ (by simp) (fun p h => (hpara2 p h).1),
               joinSep_no_nl hsep _ (fun p h => (hpara2 p h).2)⟩
      · exact ih [] (by simp) hrest q h
    · rw [if_neg hcond] at hq
      exact ih (para ++ [line]) hpara2 hrest q hq

/-- Splitting a newline-free string on the blank-line separator yields the
string itself as the only piece. -/
theorem splitNN_no_nl : ∀ l : List Char, '\n' ∉ l → splitNN l = [l] := by
  intro l
  induction l with
  | nil => intro _; rfl
  | cons c rest ih =>
    intro h
    have hc : c ≠ '\n' := fun hx => h (hx ▸ List.mem_cons_self c rest)
    have hr : '\n' ∉ rest := fun hx => h (List.mem_cons_of_mem c hx)
    cases rest with
    | nil => rfl
    | cons c2 rest2 =>
      unfold splitNN
      rw [if_neg (fun hx => hc hx.1), ih hr]

/-- Peeling one newline-free piece and one `"\n\n"` separator off the front
of a split. -/
theorem splitNN_cons_sep :
    ∀ (a l : List Char), '\n' ∉ a →
      splitNN (a ++ '\n' :: '\n' :: l) = a :: splitNN l := by
  intro a
  induction a with
  | nil => intro l _; rfl
  | cons c a' ih =>
    intro l h
    have hc : c ≠ '\n' := fun hx => h (hx ▸ List.mem_cons_self c a')
    have ha' : '\n' ∉ a' := fun hx => h (List.mem_cons_of_mem c hx)
    cases ha : a' ++ '\n' :: '\n' :: l with
    | nil => simp at ha
    | cons c2 rest2 =>
      show splitNN (c :: (a' ++ '\n' :: '\n' :: l)) = (c :: a') :: splitNN l
      rw [ha]
      conv_lhs => unfold splitNN
      rw [if_neg (fun hx => hc hx.1), ← ha, ih l ha']

/-- Round trip: splitting the blank-line join of non-empty newline-free
paragraphs recovers exactly the paragraphs. -/
theorem splitNN_joinSep :
    ∀ ps : List (List Char), ps ≠ [] → (∀ p ∈ ps, '\n' ∉ p) →
      splitNN (joinSep ['\n', '\n'] ps) = ps := by
  intro ps
  induction ps with
  | nil => intro h; exact absurd rfl h
  | cons p qs ih =>
    intro _ hps
    have hp : '\n' ∉ p := hps p (List.mem_cons_self _ _)
    cases qs with
    | nil => exact splitNN_no_nl p hp
    | cons q rest =>
      show splitNN (p ++ ['\n', '\n'] ++ joinSep ['\n', '\n'] (q :: rest)) = _
      rw [List.append_assoc]
      show splitNN (p ++ '\n' :: '\n' :: joinSep ['\n', '\n'] (q :: rest)) = _
      rw [splitNN_cons_sep p _ hp,
        ih (by simp) (fun r hr => hps r (List.mem_cons_of_mem p hr))]

/-- Well-formedness of a blank-line join of non-empty newline-free
paragraphs: the claimed output invariant. -/
theorem joinSep_paragraphs_wellformed (ps : List (List Char))
    (hps : ∀ p ∈ ps, p ≠ [] ∧ '\n' ∉ p) :
    joinSep ['\n', '\n'] ps = [] ∨
    ((joinSep ['\n', '\n'] ps).head? ≠ some '\n' ∧
     (joinSep ['\n', '\n'] ps).getLast? ≠ some '\n' ∧
     ∀ p ∈ splitNN (joinSep ['\n', '\n'] ps), p ≠ [] ∧ '\n' ∉ p) := by
  cases ps with
  | nil => left; rfl
  | cons p qs =>
    right
    have hp := hps p (List.mem_cons_self _ _)
    refine ⟨?_, ?_, ?_⟩
    · have hh : (joinSep ['\n', '\n'] (p :: qs)).head? = p.head? := by
        cases qs with
        | nil => rfl
        | cons q rest =>
          show (p ++ ['\n', '\n'] ++ joinSep ['\n', '\n'] (q :: rest)).head? = _
          rw [List.append_assoc, head?_append_left _ hp.1]
      rw [hh]
      cases p with
      | nil => exact absurd rfl hp.1
      | cons a t =>
        simp only [List.head?_cons, ne_eq, Option.some.injEq]
        intro h
        exact hp.2 (h ▸ List.mem_cons_self a t)
    · have hl : ∃ q ∈ p :: qs, (joinSep ['\n', '\n'] (p :: qs)).getLast? = q.getLast? := by
        clear hp
        induction qs generalizing p with
        | nil => exact ⟨p, List.mem_cons_self _ _, rfl⟩
        | cons q rest ih =>
          obtain ⟨r, hr, hre⟩ := ih q (fun x hx => hps x (by
            rcases List.mem_cons.mp hx with h | h
            · exact h ▸ List.mem_cons_of_mem p (List.mem_cons_self _ _)
            · exact List.mem_cons_of_mem p (List.mem_cons_of_mem q h)))
          refine ⟨r, List.mem_cons_of_mem p hr, ?_⟩
          show (p ++ ['\n', '\n'] ++ joinSep ['\n', '\n'] (q :: rest)).getLast? = _
          have hne : joinSep ['\n', '\n'] (q :: rest) ≠ [] := by
            apply joinSep_ne_nil _ _ (by simp)
            intro x hx
            exact (hps x (List.mem_cons_of_mem p hx)).1
          rw [getLast?_append_right _ hne, hre]
      obtain ⟨q, hq, hqe⟩ := hl
      rw [hqe]
      intro h
      exact (hps q hq).2 (mem_of_getLast?_eq h)
    · rw [splitNN_joinSep _ (by simp) (fun r hr => (hps r hr).2)]
      exact hps

/-! ### Character-class facts for the space-delimited mode (C8) -/

theorem toNat_ne_imp_ne {c d : Char} (h : c.toNat ≠ d.toNat) : c ≠ d :=
  fun he => h (by rw [he])

theorem alpha_range {c : Char} (h : isAsciiAlpha c = true) :
    (65 ≤ c.toNat ∧ c.toNat ≤ 90) ∨ (97 ≤ c.toNat ∧ c.toNat ≤ 122) := by
  simpa only [isAsciiAlpha, Bool.or_eq_true, Bool.and_eq_true, decide_eq_true_eq] using h

theorem alpha_not_space {c : Char} (h : isAsciiAlpha c = true) : pyIsSpace c = false := by
  have hr := alpha_range h
  simp only [pyIsSpace, Bool.or_eq_false_iff, Bool.and_eq_false_iff,
    decide_eq_false_iff_not, not_le, beq_eq_false_iff_ne, ne_eq]
  omega

theorem alpha_not_term {c : Char} (h : isAsciiAlpha c = true) : isTermEn c = false := by
  have hr := alpha_range h
  simp only [isTermEn, Bool.or_eq_false_iff, beq_eq_false_iff_ne, ne_eq]
  refine ⟨⟨toNat_ne_imp_ne ?_, toNat_ne_imp_ne ?_⟩, toNat_ne_imp_ne ?_⟩ <;>
    simp only [show ('.').toNat = 46 from rfl, show ('!').toNat = 33 from rfl,
      show ('?').toNat = 63 from rfl] <;> omega

theorem alpha_ne_nl {c : Char} (h : isAsciiAlpha c = true) : c ≠ '\n' := by
  have hr := alpha_range h
  exact toNat_ne_imp_ne (by simp only [show ('\n').toNat = 10 from rfl]; omega)

theorem alpha_ne_space {c : Char} (h : isAsciiAlpha c = true) : c ≠ ' ' := by
  have hr := alpha_range h
  exact toNat_ne_imp_ne (by simp only [show (' ').toNat = 32 from rfl]; omega)

theorem term_cases {c : Char} (h : isTermEn c = true) : c = '.' ∨ c = '!' ∨ c = '?' := by
  simpa only [isTermEn, Bool.or_eq_true, beq_iff_eq, or_assoc] using h

theorem term_not_space {c : Char} (h : isTermEn c = true) : pyIsSpace c = false := by
  rcases term_cases h with h | h | h <;> subst h <;> rfl

theorem term_not_alpha {c : Char} (h : isTermEn c = true) : isAsciiAlpha c = false := by
  rcases term_cases h with h | h | h <;> subst h <;> rfl

theorem term_ne_nl {c : Char} (h : isTermEn c = true) : c ≠ '\n' := by
  rcases term_cases h with h | h | h <;> subst h <;> decide

theorem term_ne_space {c : Char} (h : isTermEn c = true) : c ≠ ' ' := by
  rcases term_cases h with h | h | h <;> subst h <;> decide

/-! ### Stage lemmas for the space-delimited pipeline (C8) -/

/-- Whitespace collapsing passes a space-free block through unchanged. -/
theorem collapseWs_block :
    ∀ (w l : List Char), (∀ c ∈ w, pyIsSpace c = false) →
      collapseWs false (w ++ l) = w ++ collapseWs false l := by
  intro w
  induction w with
  | nil => intro l _; rfl
  | cons a w' ih =>
    intro l h
    have ha := h a (List.mem_cons_self _ _)
    show collapseWs false (a :: (w' ++ l)) = a :: (w' ++ collapseWs false l)
    simp only [collapseWs, ha, Bool.false_eq_true, if_false]
    rw [ih l (fun c hc => h c (List.mem_cons_of_mem a hc))]

/-- After a collapsed run, a non-space head resets the scanner state. -/
theorem collapseWs_true_head (c : Char) (l : List Char) (h : pyIsSpace c = false) :
    collapseWs true (c :: l) = collapseWs false (c :: l) := by
  simp only [collapseWs, h, Bool.false_eq_true, if_false]

/-- A single interior space collapses to itself. -/
theorem collapseWs_space (l : List Char) :
    collapseWs false (' ' :: l) = ' ' :: collapseWs true l := by
  simp only [collapseWs, show pyIsSpace ' ' = true from rfl, if_true, Bool.false_eq_true,
    if_false]

/-- Stripping is the identity when both ends are non-space. -/
theorem stripChars_id {l : List Char}
    (h1 : ∀ c, l.head? = some c → pyIsSpace c = false)
    (h2 : ∀ c, l.getLast? = some c → pyIsSpace c = false) :
    stripChars l = l := by
  unfold stripChars
  cases l with
  | nil => rfl
  | cons a t =>
    rw [List.dropWhile_cons, if_neg (by simp [h1 a rfl])]
    cases hrev : (a :: t).reverse with
    | nil => simp at hrev
    | cons b r' =>
      have hb : pyIsSpace b = false := by
        apply h2
        rw [← List.head?_reverse, hrev]
        rfl
      simp only [List.dropWhile_cons, hb, Bool.false_eq_true, if_false]
      rw [← hrev, List.reverse_reverse]

/-- Sentence breaking passes a block with no spaces and no terminators
through unchanged (in the non-skipping state). -/
theorem breakEn_block :
    ∀ (w l : List Char),
      (∀ c ∈ w, pyIsSpace c = false ∧ isTermEn c = false) →
      breakEn false (w ++ l) = w ++ breakEn false l := by
  intro w
  induction w with
  | nil => intro l _; rfl
  | cons a w' ih =>
    intro l h
    have ha := h a (List.mem_cons_self _ _)
    show breakEn false (a :: (w' ++ l)) = a :: (w' ++ breakEn false l)
    simp only [breakEn, Bool.false_and, Bool.false_eq_true, if_false, ha.2]
    rw [ih l (fun c hc => h c (List.mem_cons_of_mem a hc))]

/-- In the skipping state a non-space non-terminator head resets the state. -/
theorem breakEn_true_head (c : Char) (l : List Char)
    (h1 : pyIsSpace c = false) (h2 : isTermEn c = false) :
    breakEn true (c :: l) = breakEn false (c :: l) := by
  simp only [breakEn, h1, h2, Bool.and_false, Bool.false_and, Bool.false_eq_true, if_false]

/-- A terminator emits itself plus a newline and enters the skipping state. -/
theorem breakEn_term (b : Bool) (c : Char) (l : List Char) (h : isTermEn c = true) :
    breakEn b (c :: l) = c :: '\n' :: breakEn true l := by
  simp only [breakEn, term_not_space h, Bool.and_false, Bool.false_eq_true, if_false, h,
    if_true]

/-- In the skipping state whitespace is swallowed. -/
theorem breakEn_true_space (c : Char) (l : List Char) (h : pyIsSpace c = true) :
    breakEn true (c :: l) = breakEn true l := by
  simp only [breakEn, h, Bool.and_true, if_true]

/-- Peeling one newline-free piece and its `'\n'` terminator off a split. -/
theorem splitNl_piece :
    ∀ (a l : List Char), '\n' ∉ a →
      splitNl (a ++ '\n' :: l) = a :: splitNl l := by
  intro a
  induction a with
  | nil =>
    intro l _
    show splitNl ('\n' :: l) = [] :: splitNl l
    conv_lhs => unfold splitNl
    rw [if_pos rfl]
  | cons c a' ih =>
    intro l h
    have hc : c ≠ '\n' := fun hx => h (hx ▸ List.mem_cons_self c a')
    have ha' : '\n' ∉ a' := fun hx => h (List.mem_cons_of_mem c hx)
    show splitNl (c :: (a' ++ '\n' :: l)) = (c :: a') :: splitNl l
    conv_lhs => unfold splitNl
    rw [if_neg hc, ih l ha']

/-! ### Sentence lists (the inputs of the C8 boundary claim)

A space-delimited input of `n` sentences is modelled as a list of
`(word, terminator)` pairs: the sentences are single alphabetic words,
each directly followed by its terminator, adjacent sentences separated by
one space. -/

/-- Each sentence has a non-empty ASCII-alphabetic word and an English
sentence terminator. -/
def goodSent (ss : List (List Char × Char)) : Prop :=
  ∀ p ∈ ss, (p.1 ≠ [] ∧ ∀ c ∈ p.1, isAsciiAlpha c = true) ∧ isTermEn p.2 = true

/-- The rendered input text: sentences joined by single spaces. -/
def sentenceList : List (List Char × Char) → List Char
  | [] => []
  | [(w, t)] => w ++ [t]
  | (w, t) :: rest => w ++ t :: ' ' :: sentenceList rest

/-- The text after sentence breaking: each terminator followed by `'\n'`,
inter-sentence spaces swallowed. -/
def brokenList : List (List Char × Char) → List Char
  | [] => []
  | (w, t) :: rest => w ++ t :: '\n' :: brokenList rest

theorem sentenceList_cons_head (w : List Char) (t : Char)
    (rest : List (List Char × Char)) (hw : w ≠ []) :
    ∃ a S, sentenceList ((w, t) :: rest) = a :: S ∧ a ∈ w := by
  obtain ⟨a, w', rfl⟩ := List.exists_cons_of_ne_nil hw
  cases rest with
  | nil => exact ⟨a, w' ++ [t], rfl, List.mem_cons_self _ _⟩
  | cons q rest' =>
    exact ⟨a, w' ++ t :: ' ' :: sentenceList (q :: rest'), rfl, List.mem_cons_self _ _⟩

theorem sentenceList_ne_nil (p : List Char × Char) (rest : List (List Char × Char)) :
    sentenceList (p :: rest) ≠ [] := by
  obtain ⟨w, t⟩ := p
  cases rest with
  | nil => show w ++ [t] ≠ []; simp
  | cons q rest' => show w ++ t :: ' ' :: sentenceList (q :: rest') ≠ []; simp

/-- The word and terminator characters of a sentence are not newlines. -/
theorem sentence_no_nl {w : List Char} {t : Char}
    (hw : ∀ c ∈ w, isAsciiAlpha c = true) (ht : isTermEn t = true) :
    '\n' ∉ w ++ [t] := by
  intro hmem
  rcases List.mem_append.mp hmem with h | h
  · exact alpha_ne_nl (hw '\n' h) rfl
  · rw [List.mem_singleton] at h
    exact term_ne_nl ht h.symm

/-- Stage 1 (`re.sub(r'\s+', ' ', ...)`) leaves a sentence list unchanged. -/
theorem collapseWs_sentenceList :
    ∀ ss, goodSent ss → collapseWs false (sentenceList ss) = sentenceList ss := by
  intro ss
  induction ss with
  | nil => intro _; rfl
  | cons p rest ih =>
    intro h
    obtain ⟨w, t⟩ := p
    have hp := h (w, t) (List.mem_cons_self _ _)
    have hw : ∀ c ∈ w ++ [t], pyIsSpace c = false := by
      intro c hc
      rcases List.mem_append.mp hc with h2 | h2
      · exact alpha_not_space (hp.1.2 c h2)
      · rw [List.mem_singleton] at h2; subst h2; exact term_not_space hp.2
    cases rest with
    | nil =>
      show collapseWs false (w ++ [t]) = w ++ [t]
      simpa using collapseWs_block (w ++ [t]) [] hw
    | cons q rest' =>
      have hq := h q (List.mem_cons_of_mem _ (List.mem_cons_self _ _))
      have hrest : goodSent (q :: rest') := fun r hr => h r (List.mem_cons_of_mem _ hr)
      obtain ⟨a, S, hS, haw⟩ := sentenceList_cons_head q.1 q.2 rest' hq.1.1
      show collapseWs false (w ++ t :: ' ' :: sentenceList (q :: rest')) =
        w ++ t :: ' ' :: sentenceList (q :: rest')
      rw [List.append_cons w t, collapseWs_block (w ++ [t]) _ hw, collapseWs_space, hS,
        collapseWs_true_head a S (alpha_not_space (hq.1.2 a haw)), ← hS, ih hrest]

/-- Stage 2 (`.strip()`) leaves a sentence list unchanged. -/
theorem sentenceList_getLast? :
    ∀ ss : List (List Char × Char), ss ≠ [] →
      ∃ p ∈ ss, (sentenceList ss).getLast? = some p.2 := by
  intro ss
  induction ss with
  | nil => intro h; exact absurd rfl h
  | cons p rest ih =>
    intro _
    obtain ⟨w, t⟩ := p
    cases rest with
    | nil =>
      refine ⟨(w, t), List.mem_cons_self _ _, ?_⟩
      show (w ++ [t]).getLast? = some t
      rw [getLast?_append_right w (by simp)]
      rfl
    | cons q rest' =>
      obtain ⟨r, hr, hre⟩ := ih (by simp)
      refine ⟨r, List.mem_cons_of_mem _ hr, ?_⟩
      show (w ++ t :: ' ' :: sentenceList (q :: rest')).getLast? = some r.2
      obtain ⟨x, X, hX⟩ := List.exists_cons_of_ne_nil (sentenceList_ne_nil q rest')
      rw [getLast?_append_right w (by simp), List.getLast?_cons_cons, hX,
        List.getLast?_cons_cons, ← hX, hre]

theorem stripChars_sentenceList :
    ∀ ss, goodSent ss → stripChars (sentenceList ss) = sentenceList ss := by
  intro ss h
  cases ss with
  | nil => rfl
  | cons p rest =>
    obtain ⟨w, t⟩ := p
    have hp := h (w, t) (List.mem_cons_self _ _)
    obtain ⟨a, S, hS, haw⟩ := sentenceList_cons_head w t rest hp.1.1
    apply stripChars_id
    · intro c hc
      rw [hS] at hc
      simp only [List.head?_cons, Option.some.injEq] at hc
      subst hc
      exact alpha_not_space (hp.1.2 a haw)
    · intro c hc
      obtain ⟨r, hr, hre⟩ := sentenceList_getLast? ((w, t) :: rest) (by simp)
      rw [hre] at hc
      simp only [Option.some.injEq] at hc
      subst hc
      exact term_not_space (h r hr).2

/-- Stage 3 (`re.sub(r'([.!?])\s*', r'\1\n', ...)`) turns a sentence list
into its broken form. -/
theorem breakEn_sentenceList :
    ∀ ss, goodSent ss → breakEn false (sentenceList ss) = brokenList ss := by
  intro ss
  induction ss with
  | nil => intro _; rfl
  | cons p rest ih =>
    intro h
    obtain ⟨w, t⟩ := p
    have hp := h (w, t) (List.mem_cons_self _ _)
    have hw : ∀ c ∈ w, pyIsSpace c = false ∧ isTermEn c = false := fun c hc =>
      ⟨alpha_not_space (hp.1.2 c hc), alpha_not_term (hp.1.2 c hc)⟩
    cases rest with
    | nil =>
      show breakEn false (w ++ [t]) = w ++ t :: '\n' :: brokenList []
      rw [breakEn_block w [t] hw, breakEn_term false t [] hp.2]
      rfl
    | cons q rest' =>
      have hq := h q (List.mem_cons_of_mem _ (List.mem_cons_self _ _))
      have hrest : goodSent (q :: rest') := fun r hr => h r (List.mem_cons_of_mem _ hr)
      obtain ⟨a, S, hS, haw⟩ := sentenceList_cons_head q.1 q.2 rest' hq.1.1
      show breakEn false (w ++ t :: ' ' :: sentenceList (q :: rest')) =
        w ++ t :: '\n' :: brokenList (q :: rest')
      rw [breakEn_block w _ hw, breakEn_term false t _ hp.2,
        breakEn_true_space ' ' _ rfl, hS,
        breakEn_true_head a S (alpha_not_space (hq.1.2 a haw))
          (alpha_not_term (hq.1.2 a haw)), ← hS, ih hrest]

/-- Stage 4 (`.split('\n')`) recovers the sentences plus a final empty
piece. -/
theorem splitNl_brokenList :
    ∀ ss, goodSent ss →
      splitNl (brokenList ss) = ss.map (fun p => p.1 ++ [p.2]) ++ [[]] := by
  intro ss
  induction ss with
  | nil => intro _; rfl
  | cons p rest ih =>
    intro h
    obtain ⟨w, t⟩ := p
    have hp := h (w, t) (List.mem_cons_self _ _)
    have hrest : goodSent rest := fun r hr => h r (List.mem_cons_of_mem _ hr)
    show splitNl (w ++ t :: '\n' :: brokenList rest) =
      ((w, t) :: rest).map (fun p => p.1 ++ [p.2]) ++ [[]]
    rw [List.append_cons w t, splitNl_piece (w ++ [t]) _ (sentence_no_nl hp.1.2 hp.2),
      ih hrest]
    rfl

/-- Stages 4-5 (`[line.strip() for line in ... if line.strip()]`): exactly
the sentences, in order. -/
theorem linesOf_brokenList :
    ∀ ss, goodSent ss → linesOf (brokenList ss) = ss.map (fun p => p.1 ++ [p.2]) := by
  intro ss h
  unfold linesOf
  rw [splitNl_brokenList ss h, List.map_append, List.filter_append]
  have h1 : (ss.map (fun p => p.1 ++ [p.2])).map stripChars =
      ss.map (fun p => p.1 ++ [p.2]) := by
    rw [List.map_map]
    apply List.map_congr_left
    intro p hp
    have hgood := h p hp
    show stripChars (p.1 ++ [p.2]) = p.1 ++ [p.2]
    apply stripChars_id
    · intro c hc
      obtain ⟨a, w', hw⟩ := List.exists_cons_of_ne_nil hgood.1.1
      rw [hw] at hc
      simp only [List.cons_append, List.head?_cons, Option.some.injEq] at hc
      rw [← hc]
      exact alpha_not_space (hgood.1.2 a (hw ▸ List.mem_cons_self _ _))
    · intro c hc
      rw [getLast?_append_right p.1 (by simp)] at hc
      simp only [List.getLast?_singleton, Option.some.injEq] at hc
      subst hc
      exact term_not_space hgood.2
  have h2 : (ss.map (fun p => p.1 ++ [p.2])).filter (fun p => ¬ p.isEmpty) =
      ss.map (fun p => p.1 ++ [p.2]) := by
    apply List.filter_eq_self.mpr
    intro x hx
    rw [List.mem_map] at hx
    obtain ⟨p, _, hpe⟩ := hx
    subst hpe
    simp
  rw [h1, h2]
  simp [stripChars]

/-- Whole space-delimited pipeline on a sentence list, down to the
grouping loop. -/
theorem formatEn_sentenceList (ss : List (List Char × Char)) (h : goodSent ss) :
    formatEn (sentenceList ss) =
      joinSep ['\n', '\n']
        (groupGo [' '] 3 strongEn [] (ss.map (fun p => p.1 ++ [p.2]))) := by
  unfold formatEn
  rw [collapseWs_sentenceList ss h, stripChars_sentenceList ss h,
    breakEn_sentenceList ss h, linesOf_brokenList ss h]

/-- ASCII-letter count of a sentence list: the total word length. -/
theorem countP_sentenceList :
    ∀ ss, goodSent ss →
      (sentenceList ss).countP (fun c => isAsciiAlpha c) =
        (ss.map (fun p => p.1.length)).sum := by
  intro ss
  induction ss with
  | nil => intro _; rfl
  | cons p rest ih =>
    intro h
    obtain ⟨w, t⟩ := p
    have hp := h (w, t) (List.mem_cons_self _ _)
    have hrest : goodSent rest := fun r hr => h r (List.mem_cons_of_mem _ hr)
    have hcw : w.countP (fun c => isAsciiAlpha c) = w.length :=
      List.countP_eq_length.mpr (fun c hc => hp.1.2 c hc)
    cases rest with
    | nil =>
      show (w ++ [t]).countP (fun c => isAsciiAlpha c) = _
      rw [List.countP_append, hcw]
      simp [List.countP_cons, term_not_alpha hp.2]
    | cons q rest' =>
      show (w ++ t :: ' ' :: sentenceList (q :: rest')).countP (fun c => isAsciiAlpha c) = _
      rw [List.countP_append, hcw, List.countP_cons, List.countP_cons, ih hrest]
      simp [term_not_alpha hp.2, show isAsciiAlpha ' ' = false from rfl]

/-- Non-space character count of a sentence list: total word length plus
one terminator per sentence. -/
theorem filter_sentenceList :
    ∀ ss, goodSent ss →
      ((sentenceList ss).filter (fun c => c ≠ ' ')).length =
        (ss.map (fun p => p.1.length)).sum + ss.length := by
  intro ss
  induction ss with
  | nil => intro _; rfl
  | cons p rest ih =>
    intro h
    obtain ⟨w, t⟩ := p
    have hp := h (w, t) (List.mem_cons_self _ _)
    have hrest : goodSent rest := fun r hr => h r (List.mem_cons_of_mem _ hr)
    have hfw : w.filter (fun c => c ≠ ' ') = w :=
      List.filter_eq_self.mpr (fun c hc => by simp [alpha_ne_space (hp.1.2 c hc)])
    cases rest with
    | nil =>
      show ((w ++ [t]).filter (fun c => c ≠ ' ')).length = _
      rw [List.filter_append, hfw]
      simp [List.filter_cons, term_ne_space hp.2]
    | cons q rest' =>
      show ((w ++ t :: ' ' :: sentenceList (q :: rest')).filter (fun c => c ≠ ' ')).length = _
      rw [List.filter_append, hfw, List.filter_cons, List.filter_cons,
        if_pos (by simp [term_ne_space hp.2]), if_neg (by decide)]
      rw [List.length_append, List.length_cons, ih hrest]
      simp only [List.map_cons, List.sum_cons, List.length_cons]
      omega

/-- The script heuristic classifies a sentence list whose total word length
exceeds the sentence count as space-delimited (English). -/
theorem is_english_sentenceList (ss : List (List Char × Char)) (h : goodSent ss)
    (hlen : ss.length < (ss.map (fun p => p.1.length)).sum) :
    is_english (sentenceList ss) = true := by
  unfold is_english
  rw [filter_sentenceList ss h, countP_sentenceList ss h]
  simp only [decide_eq_true_eq]
  omega

/-- The strong-terminator test on a rendered sentence looks only at the
terminator character. -/
theorem strongEn_sentence (w : List Char) (t : Char) :
    strongEn (w ++ [t]) = (t == '?' || t == '!') := by
  unfold strongEn endsIn
  rw [getLast?_append_right w (by simp)]
  rfl

/-- Grouping three sentences without strong terminators: one paragraph. -/
theorem groupGo_three (s1 s2 s3 : List Char)
    (h1 : strongEn s1 = false) (h2 : strongEn s2 = false) (h3 : strongEn s3 = false) :
    groupGo [' '] 3 strongEn [] [s1, s2, s3] = [s1 ++ ' ' :: (s2 ++ ' ' :: s3)] := by
  simp [groupGo, h1, h2, h3, joinSep]

/-- Grouping four sentences without strong terminators: the fourth starts a
second paragraph. -/
theorem groupGo_four (s1 s2 s3 s4 : List Char)
    (h1 : strongEn s1 = false) (h2 : strongEn s2 = false) (h3 : strongEn s3 = false)
    (h4 : strongEn s4 = false) :
    groupGo [' '] 3 strongEn [] [s1, s2, s3, s4] = [s1 ++ ' ' :: (s2 ++ ' ' :: s3), s4] := by
  simp [groupGo, h1, h2, h3, h4, joinSep]

/-- Grouping with a strong first sentence: it closes its paragraph at once,
regardless of the 3-sentence limit. -/
theorem groupGo_strong_first (s1 s2 : List Char)
    (h1 : strongEn s1 = true) (h2 : strongEn s2 = false) :
    groupGo [' '] 3 strongEn [] [s1, s2] = [s1, s2] := by
  simp [groupGo, h1, h2, joinSep]

/-! ## C8: space-delimited paragraph-grouping boundary -/

/-- C8: for inputs of single-word sentences (non-empty ASCII-alphabetic
words, single spaces between sentences, enough letters for the
space-delimited heuristic): (1) exactly 3 sentences terminated by `'.'`
produce exactly one paragraph; (2) a 4th such sentence starts a second
paragraph; (3) a sentence ending in `'?'` closes its paragraph
immediately even though only one sentence has accumulated. -/
theorem format_for_wechat_en_boundary :
    (∀ w1 w2 w3 : List Char,
      (w1 ≠ [] ∧ ∀ c ∈ w1, isAsciiAlpha c = true) →
      (w2 ≠ [] ∧ ∀ c ∈ w2, isAsciiAlpha c = true) →
      (w3 ≠ [] ∧ ∀ c ∈ w3, isAsciiAlpha c = true) →
      3 < w1.length + w2.length + w3.length →
      splitNN (formatChars (sentenceList [(w1, '.'), (w2, '.'), (w3, '.')])) =
        [(w1 ++ ['.']) ++ ' ' :: ((w2 ++ ['.']) ++ ' ' :: (w3 ++ ['.']))]) ∧
    (∀ w1 w2 w3 w4 : List Char,
      (w1 ≠ [] ∧ ∀ c ∈ w1, isAsciiAlpha c = true) →
      (w2 ≠ [] ∧ ∀ c ∈ w2, isAsciiAlpha c = true) →
      (w3 ≠ [] ∧ ∀ c ∈ w3, isAsciiAlpha c = true) →
      (w4 ≠ [] ∧ ∀ c ∈ w4, isAsciiAlpha c = true) →
      4 < w1.length + w2.length + w3.length + w4.length →
      splitNN (formatChars (sentenceList [(w1, '.'), (w2, '.'), (w3, '.'), (w4, '.')])) =
        [(w1 ++ ['.']) ++ ' ' :: ((w2 ++ ['.']) ++ ' ' :: (w3 ++ ['.'])), w4 ++ ['.']]) ∧
    (∀ w1 w2 : List Char,
      (w1 ≠ [] ∧ ∀ c ∈ w1, isAsciiAlpha c = true) →
      (w2 ≠ [] ∧ ∀ c ∈ w2, isAsciiAlpha c = true) →
      2 < w1.length + w2.length →
      splitNN (formatChars (sentenceList [(w1, '?'), (w2, '.')])) =
        [w1 ++ ['?'], w2 ++ ['.']]) := by
  refine ⟨?_, ?_, ?_⟩
  · intro w1 w2 w3 h1 h2 h3 hlen
    have hgood : goodSent [(w1, '.'), (w2, '.'), (w3, '.')] := by
      intro p hp
      rcases List.mem_cons.mp hp with rfl | hp
      · exact ⟨h1, rfl⟩
      rcases List.mem_cons.mp hp with rfl | hp
      · exact ⟨h2, rfl⟩
      rcases List.mem_cons.mp hp with rfl | hp
      · exact ⟨h3, rfl⟩
      · exact absurd hp (List.not_mem_nil p)
    have hne := sentenceList_ne_nil (w1, '.') [(w2, '.'), (w3, '.')]
    have heng : is_english (sentenceList [(w1, '.'), (w2, '.'), (w3, '.')]) = true := by
      apply is_english_sentenceList _ hgood
      simp only [List.map_cons, List.map_nil, List.sum_cons, List.sum_nil,
        List.length_cons, List.length_nil]
      omega
    unfold formatChars
    rw [if_neg (by simpa [List.isEmpty_iff] using hne), if_pos heng,
      formatEn_sentenceList _ hgood]
    simp only [List.map_cons, List.map_nil]
    rw [groupGo_three _ _ _ (by rw [strongEn_sentence]; rfl)
      (by rw [strongEn_sentence]; rfl) (by rw [strongEn_sentence]; rfl)]
    show splitNN ((w1 ++ ['.']) ++ ' ' :: ((w2 ++ ['.']) ++ ' ' :: (w3 ++ ['.']))) = _
    apply splitNN_no_nl
    have n1 := sentence_no_nl h1.2 (show isTermEn '.' = true from rfl)
    have n2 := sentence_no_nl h2.2 (show isTermEn '.' = true from rfl)
    have n3 := sentence_no_nl h3.2 (show isTermEn '.' = true from rfl)
    intro hmem
    rcases List.mem_append.mp hmem with hx | hx
    · exact n1 hx
    rcases List.mem_cons.mp hx with hx | hx
    · exact absurd hx (by decide)
    rcases List.mem_append.mp hx with hx | hx
    · exact n2 hx
    rcases List.mem_cons.mp hx with hx | hx
    · exact absurd hx (by decide)
    · exact n3 hx
  · intro w1 w2 w3 w4 h1 h2 h3 h4 hlen
    have hgood : goodSent [(w1, '.'), (w2, '.'), (w3, '.'), (w4, '.')] := by
      intro p hp
      rcases List.mem_cons.mp hp with rfl | hp
      · exact ⟨h1, rfl⟩
      rcases List.mem_cons.mp hp with rfl | hp
      · exact ⟨h2, rfl⟩
      rcases List.mem_cons.mp hp with rfl | hp
      · exact ⟨h3, rfl⟩
      rcases List.mem_cons.mp hp with rfl | hp
      · exact ⟨h4, rfl⟩
      · exact absurd hp (List.not_mem_nil p)
    have hne := sentenceList_ne_nil (w1, '.') [(w2, '.'), (w3, '.'), (w4, '.')]
    have heng : is_english (sentenceList [(w1, '.'), (w2, '.'), (w3, '.'), (w4, '.')]) = true := by
      apply is_english_sentenceList _ hgood
      simp only [List.map_cons, List.map_nil, List.sum_cons, List.sum_nil,
        List.length_cons, List.length_nil]
      omega
    unfold formatChars
    rw [if_neg (by simpa [List.isEmpty_iff] using hne), if_pos heng,
      formatEn_sentenceList _ hgood]
    simp only [List.map_cons, List.map_nil]
    rw [groupGo_four _ _ _ _ (by rw [strongEn_sentence]; rfl)
      (by rw [strongEn_sentence]; rfl) (by rw [strongEn_sentence]; rfl)
      (by rw [strongEn_sentence]; rfl)]
    have n1 := sentence_no_nl h1.2 (show isTermEn '.' = true from rfl)
    have n2 := sentence_no_nl h2.2 (show isTermEn '.' = true from rfl)
    have n3 := sentence_no_nl h3.2 (show isTermEn '.' = true from rfl)
    have n4 := sentence_no_nl h4.2 (show isTermEn '.' = true from rfl)
    have hn1 : '\n' ∉ (w1 ++ ['.']) ++ ' ' :: ((w2 ++ ['.']) ++ ' ' :: (w3 ++ ['.'])) := by
      intro hmem
      rcases List.mem_append.mp hmem with hx | hx
      · exact n1 hx
      rcases List.mem_cons.mp hx with hx | hx
      · exact absurd hx (by decide)
      rcases List.mem_append.mp hx with hx | hx
      · exact n2 hx
      rcases List.mem_cons.mp hx with hx | hx
      · exact absurd hx (by decide)
      · exact n3 hx
    show splitNN (((w1 ++ ['.']) ++ ' ' :: ((w2 ++ ['.']) ++ ' ' :: (w3 ++ ['.']))) ++
      ['\n', '\n'] ++ (w4 ++ ['.'])) = _
    rw [List.append_assoc]
    show splitNN (((w1 ++ ['.']) ++ ' ' :: ((w2 ++ ['.']) ++ ' ' :: (w3 ++ ['.']))) ++
      '\n' :: '\n' :: (w4 ++ ['.'])) = _
    rw [splitNN_cons_sep _ _ hn1, splitNN_no_nl _ n4]
  · intro w1 w2 h1 h2 hlen
    have hgood : goodSent [(w1, '?'), (w2, '.')] := by
      intro p hp
      rcases List.mem_cons.mp hp with rfl | hp
      · exact ⟨h1, rfl⟩
      rcases List.mem_cons.mp hp with rfl | hp
      · exact ⟨h2, rfl⟩
      · exact absurd hp (List.not_mem_nil p)
    have hne := sentenceList_ne_nil (w1, '?') [(w2, '.')]
    have heng : is_english (sentenceList [(w1, '?'), (w2, '.')]) = true := by
      apply is_english_sentenceList _ hgood
      simp only [List.map_cons, List.map_nil, List.sum_cons, List.sum_nil,
        List.length_cons, List.length_nil]
      omega
    unfold formatChars
    rw [if_neg (by simpa [List.isEmpty_iff] using hne), if_pos heng,
      formatEn_sentenceList _ hgood]
    simp only [List.map_cons, List.map_nil]
    rw [groupGo_strong_first _ _ (by rw [strongEn_sentence]; rfl)
      (by rw [strongEn_sentence]; rfl)]
    have n1 := sentence_no_nl h1.2 (show isTermEn '?' = true from rfl)
    have n2 := sentence_no_nl h2.2 (show isTermEn '.' = true from rfl)
    show splitNN ((w1 ++ ['?']) ++ ['\n', '\n'] ++ (w2 ++ ['.'])) = _
    rw [List.append_assoc]
    show splitNN ((w1 ++ ['?']) ++ '\n' :: '\n' :: (w2 ++ ['.'])) = _
    rw [splitNN_cons_sep _ _ n1, splitNN_no_nl _ n2]

/-- Witness for C8 at the concrete sentences `"One. Two. Six."` (plus
`"Ten."` for the 4-sentence case) and `"Why? Yes."`. -/
theorem format_for_wechat_en_boundary_witness :
    splitNN (formatChars (sentenceList
        [("One".data, '.'), ("Two".data, '.'), ("Six".data, '.')])) =
      [("One".data ++ ['.']) ++ ' ' :: (("Two".data ++ ['.']) ++ ' ' :: ("Six".data ++ ['.']))] ∧
    splitNN (formatChars (sentenceList
        [("One".data, '.'), ("Two".data, '.'), ("Six".data, '.'), ("Ten".data, '.')])) =
      [("One".data ++ ['.']) ++ ' ' :: (("Two".data ++ ['.']) ++ ' ' :: ("Six".data ++ ['.'])),
       "Ten".data ++ ['.']] ∧
    splitNN (formatChars (sentenceList [("Why".data, '?'), ("Yes".data, '.')])) =
      ["Why".data ++ ['?'], "Yes".data ++ ['.']] :=
  ⟨format_for_wechat_en_boundary.1 _ _ _ ⟨by decide, by decide⟩ ⟨by decide, by decide⟩
      ⟨by decide, by decide⟩ (by decide),
   format_for_wechat_en_boundary.2.1 _ _ _ _ ⟨by decide, by decide⟩ ⟨by decide, by decide⟩
      ⟨by decide, by decide⟩ ⟨by decide, by decide⟩ (by decide),
   format_for_wechat_en_boundary.2.2 _ _ ⟨by decide, by decide⟩ ⟨by decide, by decide⟩
      (by decide)⟩

/-- C10: for every input string, the formatter's output is either empty or
has a non-newline first and last character and splits on the blank-line
separator `"\n\n"` into paragraphs that are all non-empty and
newline-free (so the output neither starts nor ends with a blank line and
never contains two consecutive blank-line separators). -/
theorem format_for_wechat_wellformed :
    ∀ s : String,
      (format_for_wechat s).data = [] ∨
      ((format_for_wechat s).data.head? ≠ some '\n' ∧
       (format_for_wechat s).data.getLast? ≠ some '\n' ∧
       ∀ p ∈ splitNN (format_for_wechat s).data, p ≠ [] ∧ '\n' ∉ p) := by
  intro s
  show formatChars s.data = [] ∨
    ((formatChars s.data).head? ≠ some '\n' ∧
     (formatChars s.data).getLast? ≠ some '\n' ∧
     ∀ p ∈ splitNN (formatChars s.data), p ≠ [] ∧ '\n' ∉ p)
  unfold formatChars
  by_cases he : s.data.isEmpty
  · rw [if_pos he]; left; rfl
  · rw [if_neg he]
    by_cases hen : is_english s.data = true
    · rw [if_pos hen]
      unfold formatEn
      exact joinSep_paragraphs_wellformed _
        (groupGo_good [' '] 3 strongEn (by simp) _ [] (by simp) (linesOf_good _))
    · rw [if_neg hen]
      unfold formatZh
      exact joinSep_paragraphs_wellformed _
        (groupGo_good [] 2 strongZh (by simp) _ [] (by simp) (linesOf_good _))

end Bili2Text
